import Mathlib

/-!
Verification of the grabchars terminal-input core against its source
(`src/input.rs`, `src/main.rs`, `src/mask.rs`).

The development shallowly embeds the three components the claims are about:

* the key decoder (`read_key` / `parse_escape_seq` in `src/input.rs`),
  modelled over an explicit stream of read events standing for the bytes
  (and read failures) delivered by the file descriptor;
* the line-editing loop of `main.rs` (the `erase_active` match), modelled
  as a step function on an explicit edit-buffer state;
* the mask automaton of `src/mask.rs` (`parse_mask`, `try_advance`,
  `mask_satisfied`, `mask_auto_insert_literals`, and the big key-dispatch
  match of `run_mask_mode`), modelled as a step function on the
  buffer/mask-map state together with a driver that replays a list of
  logical keys.

Machine bytes are `Nat` values below 256; `ch as u8` in the source becomes
`ch.toNat % 256`.  Terminal output (redraw escape codes written to stderr)
carries no state the claims depend on and is dropped.
-/

namespace Grabchars

/-! ## Key decoder (`src/input.rs`) -/

/-- The `KeyInput` enum of `src/input.rs`. -/
inductive KeyInput where
  | Char (b : Nat)
  | Backspace
  | Delete
  | Left
  | Right
  | Up
  | Down
  | Home
  | End
  | Tab
  | Escape
  | KillToEnd
  | KillToStart
  | KillWordBack
  | Enter
  | Unknown
  deriving DecidableEq, Repr

/-- Error kinds the reads in `src/input.rs` can surface: `read_byte` turns a
zero-length read into `io::ErrorKind::UnexpectedEof` and otherwise reports
the OS error (`interrupted` for `EINTR`, anything else as `other`). -/
inductive ErrKind where
  | unexpectedEof
  | interrupted
  | other (code : Nat)
  deriving DecidableEq, Repr

/-- One outcome of a `libc::read` of a single byte on the descriptor:
a byte, end of stream (`read` returned 0), or a failure with some kind. -/
inductive ReadEvent where
  | byte (b : Nat)
  | eof
  | fail (k : ErrKind)
  deriving DecidableEq, Repr

/-- `read_byte` of `src/input.rs` over the event-stream model: consumes the
next event.  An exhausted model stream behaves as end of stream. -/
def read_byte : List ReadEvent → Except ErrKind (Nat × List ReadEvent)
  | [] => .error .unexpectedEof
  | .byte b :: rest => .ok (b, rest)
  | .eof :: _ => .error .unexpectedEof
  | .fail k :: _ => .error k

/-- `parse_escape_seq` of `src/input.rs`.  `avail` is the answer of the
single `byte_available(fd, 50)` poll made after the initial `0x1B`; a
`false` answer means no follow-up byte arrived within the 50 ms wait. -/
def parse_escape_seq (avail : Bool) (events : List ReadEvent) :
    Except ErrKind KeyInput :=
  if !avail then .ok .Escape
  else
    match read_byte events with
    | .error _ => .ok .Escape
    | .ok (b2, rest2) =>
      if b2 ≠ 91 then .ok .Unknown   -- 91 = '['
      else
        match read_byte rest2 with
        | .error _ => .ok .Unknown
        | .ok (b3, rest3) =>
          if b3 = 65 then .ok .Up            -- 'A'
          else if b3 = 66 then .ok .Down     -- 'B'
          else if b3 = 67 then .ok .Right    -- 'C'
          else if b3 = 68 then .ok .Left     -- 'D'
          else if b3 = 72 then .ok .Home     -- 'H'
          else if b3 = 70 then .ok .End      -- 'F'
          else if b3 = 49 ∨ b3 = 51 ∨ b3 = 52 then  -- '1' | '3' | '4'
            match read_byte rest3 with
            | .error _ => .ok .Unknown
            | .ok (b4, _) =>
              if b4 = 126 then               -- '~'
                if b3 = 51 then .ok .Delete
                else if b3 = 49 then .ok .Home
                else if b3 = 52 then .ok .End
                else .ok .Unknown
              else .ok .Unknown
          else
            -- other CSI digit: consume the trailing byte, classify Unknown
            .ok .Unknown

/-- `read_key` of `src/input.rs`: reads one byte, maps control bytes to
logical keys, and hands `0x1B` to the escape-sequence decoder. -/
def read_key (avail : Bool) (events : List ReadEvent) :
    Except ErrKind KeyInput :=
  match read_byte events with
  | .error e => .error e
  | .ok (b, rest) =>
    if b = 0x01 then .ok .Home
    else if b = 0x02 then .ok .Left
    else if b = 0x04 then .ok .Delete
    else if b = 0x05 then .ok .End
    else if b = 0x06 then .ok .Right
    else if b = 0x0B then .ok .KillToEnd
    else if b = 0x15 then .ok .KillToStart
    else if b = 0x17 then .ok .KillWordBack
    else if b = 0x09 then .ok .Tab
    else if b = 0x7F ∨ b = 0x08 then .ok .Backspace
    else if b = 0x0A ∨ b = 0x0D then .ok .Enter
    else if b = 0x1B then parse_escape_seq avail rest
    else .ok (.Char b)

/-! ## Line-editing loop (`src/main.rs`, the `erase_active` match) -/

/-- The behaviour flags of `main.rs` that reach the edit loop and the mask
automaton (`Flags` fields `silent`, `upper`, `lower`, `check`, `exclude`,
`ret_key`, `dflt`). -/
structure Flags where
  silent : Bool := false
  upper : Bool := false
  lower : Bool := false
  check : Bool := false
  exclude : Bool := false
  ret_key : Bool := false
  dflt : Bool := false

/-- The include/exclude regular expressions are external matchers
(`regex::Regex::is_match` on a single character); they are modelled as
character predicates.  `has_default` records whether a `-d` default string
is configured (its contents never reach the edit state). -/
structure EditCtx where
  flags : Flags
  valid_pattern : Option (Char → Bool) := none
  exclude_pattern : Option (Char → Bool) := none
  has_default : Bool := false

/-- State of the line-editing loop: the byte buffer, the cursor, and the
running character count `num_read`. -/
structure EditState where
  buffer : List Nat
  cursor_pos : Nat
  num_read : Nat
  deriving DecidableEq, Repr

/-- `Vec::insert(i, x)`. -/
def vec_insert (l : List Nat) (i : Nat) (x : Nat) : List Nat :=
  l.take i ++ x :: l.drop i

/-- `Vec::remove(i)`. -/
def vec_remove (l : List Nat) (i : Nat) : List Nat :=
  l.take i ++ l.drop (i + 1)

/-- The first `while` of the `KillWordBack` arm: starting from `pos`, step
backwards over space bytes (`b' '` = 32). -/
def skip_spaces_back (buffer : List Nat) : Nat → Nat
  | 0 => 0
  | n + 1 => if buffer.getD n 0 = 32 then skip_spaces_back buffer n else n + 1

/-- The second `while` of the `KillWordBack` arm: step backwards over
non-space bytes. -/
def skip_word_back (buffer : List Nat) : Nat → Nat
  | 0 => 0
  | n + 1 => if buffer.getD n 0 ≠ 32 then skip_word_back buffer n else n + 1

/-- `ch.to_uppercase().next().unwrap_or(ch)` / lowercase, as used by the
source.  The source applies Unicode simple case mapping; all claims and
masks here involve ASCII only, where it agrees with ASCII case mapping. -/
def case_map (flags : Flags) (ch : Char) : Char :=
  let ch := if flags.upper then ch.toUpper else ch
  if flags.lower then ch.toLower else ch

/-- Does a `-c` include filter reject `ch`, or a `-C` exclude filter match
it?  (`continue` in the source: the key is dropped with no state change.) -/
def filtered_out (ctx : EditCtx) (ch : Char) : Bool :=
  (ctx.flags.check &&
    (match ctx.valid_pattern with
     | some re => !re ch
     | none => false)) ||
  (ctx.flags.exclude &&
    (match ctx.exclude_pattern with
     | some re => re ch
     | none => false))

/-- One iteration of the `erase_active` edit loop of `main.rs` (lines
585-758), as a pure transformer of the edit state.  Arms that leave the
loop (`break 'outer` for `-r` Enter, the default-string `process::exit`)
leave the state unchanged, as does a key dropped by a filter. -/
def edit_step (ctx : EditCtx) (s : EditState) (key : KeyInput) : EditState :=
  match key with
  | .Char b =>
    let ch := Char.ofNat b
    if filtered_out ctx ch then s
    else
      let ch := case_map ctx.flags ch
      { buffer := vec_insert s.buffer s.cursor_pos (ch.toNat % 256),
        cursor_pos := s.cursor_pos + 1,
        num_read := s.num_read + 1 }
  | .Backspace =>
    if s.cursor_pos > 0 then
      { buffer := vec_remove s.buffer (s.cursor_pos - 1),
        cursor_pos := s.cursor_pos - 1,
        num_read := s.num_read - 1 }
    else s
  | .Delete =>
    if s.cursor_pos < s.buffer.length then
      { s with buffer := vec_remove s.buffer s.cursor_pos,
               num_read := s.num_read - 1 }
    else s
  | .Left =>
    if s.cursor_pos > 0 then { s with cursor_pos := s.cursor_pos - 1 } else s
  | .Right =>
    if s.cursor_pos < s.buffer.length then
      { s with cursor_pos := s.cursor_pos + 1 }
    else s
  | .Home =>
    if s.cursor_pos > 0 then { s with cursor_pos := 0 } else s
  | .End =>
    if s.cursor_pos < s.buffer.length then
      { s with cursor_pos := s.buffer.length }
    else s
  | .KillToEnd =>
    let removed := s.buffer.length - s.cursor_pos
    if removed > 0 then
      { s with buffer := s.buffer.take s.cursor_pos,
               num_read := s.num_read - removed }
    else s
  | .KillToStart =>
    if s.cursor_pos > 0 then
      { buffer := s.buffer.drop s.cursor_pos,
        cursor_pos := 0,
        num_read := s.num_read - s.cursor_pos }
    else s
  | .KillWordBack =>
    if s.cursor_pos > 0 then
      let old_cursor := s.cursor_pos
      let new_pos := skip_word_back s.buffer (skip_spaces_back s.buffer s.cursor_pos)
      let removed := old_cursor - new_pos
      { buffer := s.buffer.take new_pos ++ s.buffer.drop old_cursor,
        cursor_pos := new_pos,
        num_read := s.num_read - removed }
    else s
  | .Enter =>
    if ctx.flags.dflt && s.num_read = 0 && ctx.has_default then s
    else if ctx.flags.ret_key then s
    else
      let ch := '\n'
      if filtered_out ctx ch then s
      else
        { buffer := vec_insert s.buffer s.cursor_pos (ch.toNat % 256),
          cursor_pos := s.cursor_pos + 1,
          num_read := s.num_read + 1 }
  | _ => s

/-- The edit loop starts with an empty buffer, cursor 0 and `num_read` 0. -/
def edit_init : EditState := ⟨[], 0, 0⟩

/-- The edit state after replaying a list of decoded keys from the start
of the loop. -/
def edit_run (ctx : EditCtx) (keys : List KeyInput) : EditState :=
  keys.foldl (edit_step ctx) edit_init

/-! ## Mask automaton (`src/mask.rs`) -/

/-- The `MaskClass` enum of `src/mask.rs`.  `Custom` carries the content of
the bracket expression (the characters between `[` and `]`, including a
leading `^` or a leading literal `]` member) instead of the compiled
`regex::Regex`; see `bracket_matches` for its matcher. -/
inductive MaskClass where
  | Upper
  | Lower
  | Alpha
  | Digit
  | Hex
  | Punct
  | Whitespace
  | Any
  | Custom (content : List Char)
  | Literal (ch : Char)
  deriving DecidableEq, Repr

/-- The `Quantifier` enum of `src/mask.rs`. -/
inductive Quantifier where
  | One
  | Star
  | Plus
  | Optional
  deriving DecidableEq, Repr

/-- The `MaskElement` struct (`class` is a Lean keyword, hence `cls`). -/
structure MaskElement where
  cls : MaskClass
  quantifier : Quantifier
  deriving DecidableEq, Repr

def isLiteral : MaskClass → Bool
  | .Literal _ => true
  | _ => false

/-- Scan a bracket expression up to the closing `]` (the `while` of
`parse_mask`); returns the scanned content and the rest of the mask
string, or `none` for an unclosed `[` (a fatal construction error). -/
def scan_class : List Char → Option (List Char × List Char)
  | [] => none
  | ']' :: rest => some ([], rest)
  | c :: rest =>
    match scan_class rest with
    | none => none
    | some (content, rem) => some (c :: content, rem)

/-- Map a single mask character to its built-in class (the `match ch` of
`parse_mask`). -/
def char_class (ch : Char) : MaskClass :=
  if ch = 'U' then .Upper
  else if ch = 'l' then .Lower
  else if ch = 'c' then .Alpha
  else if ch = 'n' then .Digit
  else if ch = 'x' then .Hex
  else if ch = 'p' then .Punct
  else if ch = 'W' then .Whitespace
  else if ch = '.' then .Any
  else .Literal ch

def isQuantChar (ch : Char) : Bool :=
  ch = '*' || ch = '+' || ch = '?'

def quant_of_char (ch : Char) : Quantifier :=
  if ch = '*' then .Star
  else if ch = '+' then .Plus
  else .Optional

/-- After an element has been pushed, attach a quantifier suffix if one
immediately follows (`if i < chars.len() && (chars[i] is a quantifier)` in
`parse_mask`); a quantifier on a literal is a fatal construction error. -/
def read_quant (elem : MaskElement) (is_lit : Bool) (rest : List Char) :
    Option (MaskElement × List Char) :=
  match rest with
  | q :: rest2 =>
    if isQuantChar q then
      if is_lit then none
      else some ({ elem with quantifier := quant_of_char q }, rest2)
    else some (elem, rest)
  | [] => some (elem, [])

/-- The `while i < chars.len()` loop of `parse_mask`, with the iteration
count made explicit as fuel.  Every iteration consumes at least one
character, so `chars.length + 1` units of fuel always reach the end of
the string; the fuel-exhausted branch is unreachable from `parse_mask`. -/
def parse_go : Nat → List Char → Option (List MaskElement)
  | 0, _ => none
  | _ + 1, [] => some []
  | fuel + 1, ch :: rest =>
    if isQuantChar ch then none   -- quantifier with no preceding element
    else if ch = '\\' then
      match rest with
      | [] => some []   -- trailing backslash: no element is pushed
      | lit :: rest2 =>
        match read_quant ⟨.Literal lit, .One⟩ true rest2 with
        | none => none
        | some (elem, rem) =>
          match parse_go fuel rem with
          | none => none
          | some tail => some (elem :: tail)
    else if ch = '[' then
      -- the scanner first skips one char if it is '^' or ']'
      let (pre, body) :=
        match rest with
        | '^' :: r => (['^'], r)
        | ']' :: r => ([']'], r)
        | r => (([] : List Char), r)
      match scan_class body with
      | none => none   -- unclosed '['
      | some (content, rem0) =>
        match read_quant ⟨.Custom (pre ++ content), .One⟩ false rem0 with
        | none => none
        | some (elem, rem) =>
          match parse_go fuel rem with
          | none => none
          | some tail => some (elem :: tail)
    else
      let cls := char_class ch
      match read_quant ⟨cls, .One⟩ (isLiteral cls) rest with
      | none => none
      | some (elem, rem) =>
        match parse_go fuel rem with
        | none => none
        | some tail => some (elem :: tail)

/-- `parse_mask` of `src/mask.rs` over the mask string's characters.
`none` stands for the fatal `process::exit(255)` construction errors
(leading/dangling quantifier, quantifier on a literal, unclosed `[`).
Validation of the bracket expression by the external regex engine is not
modelled. -/
def parse_mask (mask_str : List Char) : Option (List MaskElement) :=
  parse_go (mask_str.length + 1) mask_str

/-! ### Character classes and matching -/

def is_ascii_uppercase (ch : Char) : Bool := 'A' ≤ ch && ch ≤ 'Z'
def is_ascii_lowercase (ch : Char) : Bool := 'a' ≤ ch && ch ≤ 'z'
def is_ascii_alphabetic (ch : Char) : Bool :=
  is_ascii_uppercase ch || is_ascii_lowercase ch
def is_ascii_digit (ch : Char) : Bool := '0' ≤ ch && ch ≤ '9'
def is_ascii_hexdigit (ch : Char) : Bool :=
  is_ascii_digit ch || ('a' ≤ ch && ch ≤ 'f') || ('A' ≤ ch && ch ≤ 'F')
def is_ascii_punctuation (ch : Char) : Bool :=
  ('!' ≤ ch && ch ≤ '/') || (':' ≤ ch && ch ≤ '@') ||
  ('[' ≤ ch && ch ≤ '\x60') || ('\x7b' ≤ ch && ch ≤ '~')
def is_ascii_whitespace (ch : Char) : Bool :=
  ch = ' ' || ch = '\t' || ch = '\n' || ch = '\x0c' || ch = '\r'

/-- Single-character matching for the members of a bracket expression:
`a-b` is a range, anything else a literal member.  Together with
`bracket_matches` this models how the external `regex` crate matches one
character against the class `^[...]$` built by `parse_mask`. -/
def bracket_items_match : List Char → Char → Bool
  | [], _ => false
  | a :: '-' :: b :: rest, ch =>
    (a ≤ ch && ch ≤ b) || bracket_items_match rest ch
  | a :: rest, ch => a = ch || bracket_items_match rest ch

/-- Matcher of a compiled `[...]` class: a leading `^` negates the rest. -/
def bracket_matches (content : List Char) (ch : Char) : Bool :=
  match content with
  | '^' :: items => !bracket_items_match items ch
  | items => bracket_items_match items ch

/-- `mask_char_matches` of `src/mask.rs`. -/
def mask_char_matches (cls : MaskClass) (ch : Char) : Bool :=
  match cls with
  | .Upper => is_ascii_uppercase ch
  | .Lower => is_ascii_lowercase ch
  | .Alpha => is_ascii_alphabetic ch
  | .Digit => is_ascii_digit ch
  | .Hex => is_ascii_hexdigit ch
  | .Punct => is_ascii_punctuation ch
  | .Whitespace => is_ascii_whitespace ch
  | .Any => true
  | .Custom content => bracket_matches content ch
  | .Literal l => ch = l

/-! ### Mask-map state -/

/-- The joint state of `run_mask_mode`: the accepted bytes and the
parallel list of producing element indices. -/
structure MaskState where
  buffer : List Nat
  mask_map : List Nat
  deriving DecidableEq, Repr

/-- Indexing `mask[i]` (the source indexes under the length invariant; a
default keeps the model total). -/
def maskGet (mask : List MaskElement) (i : Nat) : MaskElement :=
  mask.getD i ⟨.Any, .One⟩

/-- `current_mask_state` of `src/mask.rs`: the element index of the last
mask-map entry and the length of the trailing run of that index. -/
def current_mask_state (mask_map : List Nat) : Nat × Nat :=
  match mask_map.getLast? with
  | none => (0, 0)
  | some idx => (idx, (mask_map.reverse.takeWhile (fun x => x == idx)).length)

/-- The `while idx < mask.len()` loop of `try_advance`, walking the
suffix of the mask that starts at element `idx`. -/
def try_advance_from (elems : List MaskElement) (idx : Nat) (ch : Char) :
    Option Nat :=
  match elems with
  | [] => none   -- past end of mask
  | e :: rest =>
    if isLiteral e.cls then try_advance_from rest (idx + 1) ch
    else if mask_char_matches e.cls ch then some idx
    else if e.quantifier == .Star || e.quantifier == .Optional then
      try_advance_from rest (idx + 1) ch
    else none    -- blocked by a required element

/-- `try_advance` of `src/mask.rs`: scan forward from `from_idx`, skipping
literals and skippable zero-minimum elements that do not match, until an
element matches `ch` or a required element blocks. -/
def try_advance (mask : List MaskElement) (from_idx : Nat) (ch : Char) :
    Option Nat :=
  try_advance_from (mask.drop from_idx) from_idx ch

/-- Minimum required count of a quantifier. -/
def quant_min : Quantifier → Nat
  | .One => 1
  | .Plus => 1
  | .Star => 0
  | .Optional => 0

/-- `mask_satisfied` of `src/mask.rs`. -/
def mask_satisfied (mask : List MaskElement) (mask_map : List Nat) : Bool :=
  mask.enum.all fun p =>
    if isLiteral p.2.cls then true
    else decide (quant_min p.2.quantifier ≤ mask_map.count p.1)

/-- `mask_has_unbounded` of `src/mask.rs`. -/
def mask_has_unbounded (mask : List MaskElement) : Bool :=
  mask.any fun e => e.quantifier == .Star || e.quantifier == .Plus

/-- The `while idx < mask.len()` loop of `mask_auto_insert_literals`,
walking the suffix of the mask that starts at element `idx`. -/
def auto_insert_from (elems : List MaskElement) (buffer mask_map : List Nat)
    (idx : Nat) : List Nat × List Nat :=
  match elems with
  | [] => (buffer, mask_map)
  | e :: rest =>
    match e.cls with
    | .Literal l =>
      auto_insert_from rest (buffer ++ [l.toNat % 256])
        (mask_map ++ [idx]) (idx + 1)
    | _ => (buffer, mask_map)

/-- `mask_auto_insert_literals` of `src/mask.rs`: splice the consecutive
literal elements starting at `from_idx` into buffer and mask map. -/
def mask_auto_insert_literals (mask : List MaskElement)
    (buffer mask_map : List Nat) (from_idx : Nat) : List Nat × List Nat :=
  auto_insert_from (mask.drop from_idx) buffer mask_map from_idx

/-- The body of the `for li in start..new_idx` literal re-insertion loop
of the advance branch of `run_mask_mode`: insert element `li` if it is a
literal, else leave the state alone. -/
def ins_lit_step (mask : List MaskElement) (bm : List Nat × List Nat)
    (li : Nat) : List Nat × List Nat :=
  match (maskGet mask li).cls with
  | .Literal l => (bm.1 ++ [l.toNat % 256], bm.2 ++ [li])
  | _ => bm

/-- The `for li in start..new_idx` literal re-insertion loop of the
advance branch of `run_mask_mode`. -/
def insert_literals_range (mask : List MaskElement)
    (buffer mask_map : List Nat) (start stop : Nat) : List Nat × List Nat :=
  (List.range' start (stop - start)).foldl (ins_lit_step mask)
    (buffer, mask_map)

/-! ### The `run_mask_mode` key dispatch -/

/-- Everything `run_mask_mode` receives besides the keystream.  The two
filter regexes are modelled as character predicates; of the default
string only its contents as bytes matter. -/
structure MaskCtx where
  mask : List MaskElement
  flags : Flags
  default_string : Option (List Nat) := none
  valid_pattern : Option (Char → Bool) := none
  exclude_pattern : Option (Char → Bool) := none

/-- The greedy-accept path of the `KeyInput::Char` arm: append `ch` at
the current element `idx` (consumed count `count` so far), then — if a
One/Optional element is now full — auto-insert the literals after it. -/
def mask_greedy_accept (mask : List MaskElement) (s : MaskState) (ch : Char)
    (idx count : Nat) : MaskState :=
  let buffer := s.buffer ++ [ch.toNat % 256]
  let mask_map := s.mask_map ++ [idx]
  let now_count := count + 1
  let is_full : Bool :=
    match (maskGet mask idx).quantifier with
    | .One => decide (now_count ≥ 1)
    | .Optional => decide (now_count ≥ 1)
    | _ => false   -- unbounded elements do not auto-advance
  if is_full then
    let bm := mask_auto_insert_literals mask buffer mask_map (idx + 1)
    ⟨bm.1, bm.2⟩
  else ⟨buffer, mask_map⟩

/-- The advance path of the `KeyInput::Char` arm, after `try_advance`
found `new_idx`: splice in the literals between the old position and
`new_idx`, accept `ch` at `new_idx`, and auto-insert trailing literals
when `new_idx` is a One/Optional element. -/
def mask_advance_accept (mask : List MaskElement) (s : MaskState) (ch : Char)
    (advance_from new_idx : Nat) : MaskState :=
  let bm := mask_auto_insert_literals mask s.buffer s.mask_map advance_from
  let last_map := bm.2.getLast?.getD 0
  let bm2 :=
    if last_map < new_idx then
      let start := if bm.2.isEmpty then 0 else last_map + 1
      insert_literals_range mask bm.1 bm.2 start new_idx
    else bm
  let buffer := bm2.1 ++ [ch.toNat % 256]
  let mask_map := bm2.2 ++ [new_idx]
  if (maskGet mask new_idx).quantifier == .One ||
      (maskGet mask new_idx).quantifier == .Optional then
    let bm3 := mask_auto_insert_literals mask buffer mask_map (new_idx + 1)
    ⟨bm3.1, bm3.2⟩
  else ⟨buffer, mask_map⟩

/-- The quantifier-aware acceptance decision of the `KeyInput::Char` arm,
after the filters: greedy accept at the current element, else — if its
minimum is met — advance, else reject. -/
def mask_accept_char (mask : List MaskElement) (s : MaskState) (ch : Char) :
    MaskState :=
  let ic := current_mask_state s.mask_map
  let idx := ic.1
  let count := ic.2
  let can_accept_more : Bool :=
    if idx < mask.length then
      match (maskGet mask idx).quantifier with
      | .One => decide (count < 1)
      | .Star => true
      | .Plus => true
      | .Optional => decide (count < 1)
    else false
  let matches_current : Bool :=
    can_accept_more && decide (idx < mask.length) &&
      mask_char_matches (maskGet mask idx).cls ch
  let min_satisfied : Bool :=
    if idx < mask.length then
      match (maskGet mask idx).quantifier with
      | .One => decide (count ≥ 1)
      | .Star => true
      | .Plus => decide (count ≥ 1)
      | .Optional => true
    else true
  if matches_current then mask_greedy_accept mask s ch idx count
  else if min_satisfied then
    let advance_from := if idx < mask.length then idx + 1 else mask.length
    match try_advance mask advance_from ch with
    | some new_idx => mask_advance_accept mask s ch advance_from new_idx
    | none => s   -- reject (ignore keystroke)
  else s          -- reject (minimum not met and no match)

/-- The `KeyInput::Char` arm of `run_mask_mode` (case mapping, the `-c` /
`-C` filters, then the quantifier-aware accept / advance / reject
decision), as a pure state transformer. -/
def mask_step_char (ctx : MaskCtx) (s : MaskState) (b : Nat) : MaskState :=
  let ch := case_map ctx.flags (Char.ofNat b)
  if ctx.flags.check &&
      (match ctx.valid_pattern with
       | some re => !re ch
       | none => false) then s
  else if ctx.flags.exclude &&
      (match ctx.exclude_pattern with
       | some re => re ch
       | none => false) then s
  else mask_accept_char ctx.mask s ch

/-- The chain-delete `while !buffer.is_empty()` loop of the
`KeyInput::Backspace` arm, with the iteration count made explicit as
fuel.  Every iteration pops one byte, so `buffer.length` units of fuel
always run the loop to its exit; with that fuel the `0` case coincides
with the empty-buffer loop exit. -/
def backspace_chain_go (mask : List MaskElement) :
    Nat → List Nat → List Nat → List Nat × List Nat
  | 0, buffer, mask_map => (buffer, mask_map)
  | fuel + 1, buffer, mask_map =>
    if buffer = [] then (buffer, mask_map)
    else
      let prev_mask_idx := mask_map.getLast?.getD 0
      if isLiteral (maskGet mask prev_mask_idx).cls then
        let all_literals :=
          mask_map.all fun mi => isLiteral (maskGet mask mi).cls
        let buffer2 := buffer.dropLast
        let mask_map2 := mask_map.dropLast
        if all_literals then backspace_chain_go mask fuel buffer2 mask_map2
        else if !buffer2.isEmpty &&
            isLiteral (maskGet mask (mask_map2.getLast?.getD 0)).cls then
          backspace_chain_go mask fuel buffer2 mask_map2
        else (buffer2, mask_map2)
      else (buffer, mask_map)

/-- The chain-delete `while` of the `KeyInput::Backspace` arm, entered
after the initial pop. -/
def backspace_chain (mask : List MaskElement) (buffer mask_map : List Nat) :
    List Nat × List Nat :=
  backspace_chain_go mask buffer.length buffer mask_map

/-- The `KeyInput::Backspace` arm of `run_mask_mode`. -/
def mask_step_backspace (mask : List MaskElement) (s : MaskState) : MaskState :=
  if s.buffer = [] then s
  else
    let bm := backspace_chain mask s.buffer.dropLast s.mask_map.dropLast
    ⟨bm.1, bm.2⟩

/-- How one dispatched key leaves the `run_mask_mode` loop. -/
inductive MaskOutcome where
  | cont (s : MaskState)   -- the loop continues with this state
  | accept (s : MaskState) -- `break`: the buffer is output, exit is its length
  | use_default            -- `-d` default consumed, early return
  | cancel                 -- Escape: erase display, return -1
  deriving DecidableEq, Repr

/-- The key dispatch `match key` of `run_mask_mode` (lines 300-496).  Keys
other than Char/Backspace/Enter/Escape are ignored in mask mode. -/
def mask_step (ctx : MaskCtx) (s : MaskState) (key : KeyInput) : MaskOutcome :=
  match key with
  | .Char b => .cont (mask_step_char ctx s b)
  | .Backspace => .cont (mask_step_backspace ctx.mask s)
  | .Enter =>
    if ctx.flags.dflt && s.buffer.isEmpty && ctx.default_string.isSome then
      .use_default
    else if ctx.flags.ret_key then
      if mask_satisfied ctx.mask s.mask_map || s.buffer.isEmpty then .accept s
      else .cont s
    else if !mask_has_unbounded ctx.mask then
      .cont s   -- without -r and no unbounded element, Enter does nothing
    else if mask_satisfied ctx.mask s.mask_map && !s.buffer.isEmpty then
      .accept s
    else .cont s
  | .Escape => .cancel
  | _ => .cont s

/-- The completion check at the top of each `run_mask_mode` iteration
(lines 252-276): `true` exactly when the loop `break`s before reading the
next key. -/
def auto_complete (mask : List MaskElement) (s : MaskState) : Bool :=
  if mask_has_unbounded mask then false
  else
    let ic := current_mask_state s.mask_map
    let idx := ic.1
    let count := ic.2
    let past_end : Bool :=
      if s.mask_map.isEmpty then
        mask.isEmpty || mask.all fun e => isLiteral e.cls
      else
        decide (idx ≥ mask.length - 1) && decide (count ≥ 1) &&
          ((maskGet mask idx).quantifier == .One) &&
          (idx == mask.length - 1)
    if decide (s.buffer.length ≥ mask.length) &&
        (mask.all fun e => e.quantifier == .One) then true
    else if past_end && mask_satisfied mask s.mask_map then true
    else false

/-- The state `run_mask_mode` builds before its loop: leading literals are
auto-inserted into the empty buffer. -/
def mask_init (ctx : MaskCtx) : MaskState :=
  let bm := mask_auto_insert_literals ctx.mask [] [] 0
  ⟨bm.1, bm.2⟩

/-- The state after a dispatched key, for reachability arguments: outcomes
that leave the loop keep the state they left with. -/
def mask_loop_state (ctx : MaskCtx) (s : MaskState) (key : KeyInput) :
    MaskState :=
  match mask_step ctx s key with
  | .cont s2 => s2
  | .accept s2 => s2
  | _ => s

/-- A state of the mask-mode loop reached by replaying a key list. -/
def mask_reach (ctx : MaskCtx) (keys : List KeyInput) : MaskState :=
  keys.foldl (mask_loop_state ctx) (mask_init ctx)

/-- Result of running the mask-mode loop on a finite keystream.  The
external timeout flag (`TIMED_OUT`) and read errors are not part of the
replayed stream: `pending` is the loop blocked on the next key. -/
inductive MaskRunResult where
  | accepted (buf : List Nat)
  | cancelled
  | defaulted
  | pending (s : MaskState)
  deriving DecidableEq, Repr

/-- The `run_mask_mode` loop itself: check completion at the top, then
read and dispatch one key. -/
def mask_run (ctx : MaskCtx) : MaskState → List KeyInput → MaskRunResult
  | s, [] =>
    if auto_complete ctx.mask s then .accepted s.buffer else .pending s
  | s, k :: rest =>
    if auto_complete ctx.mask s then .accepted s.buffer
    else
      match mask_step ctx s k with
      | .cont s2 => mask_run ctx s2 rest
      | .accept s2 => .accepted s2.buffer
      | .use_default => .defaulted
      | .cancel => .cancelled

/-! ### Mask-map invariant (C5) -/

/-- The element indices `auto_insert_from` appends: the consecutive run
of literal elements of `elems` counted from `idx`. -/
def lit_run : List MaskElement → Nat → List Nat
  | [], _ => []
  | e :: rest, idx =>
    match e.cls with
    | .Literal _ => idx :: lit_run rest (idx + 1)
    | _ => []

/-- The element indices `ins_lit_step` keeps from a candidate list. -/
def lit_filter (mask : List MaskElement) (l : List Nat) : List Nat :=
  l.filter fun li => isLiteral (maskGet mask li).cls

/-- The mask-map part of the loop invariant: the map is nondecreasing,
its entries index real mask elements, and every Exactly-One or ZeroOrOne
element produced at most one entry. -/
def MapInv (mask : List MaskElement) (mask_map : List Nat) : Prop :=
  List.Pairwise (· ≤ ·) mask_map ∧
  (∀ j ∈ mask_map, j < mask.length) ∧
  (∀ j : Nat,
    (maskGet mask j).quantifier = .One ∨ (maskGet mask j).quantifier = .Optional →
    mask_map.count j ≤ 1)

/-- The invariant of the mask-mode loop state: the mask-map invariant
plus equal buffer/mask-map length. -/
def MaskInv (mask : List MaskElement) (buffer mask_map : List Nat) : Prop :=
  MapInv mask mask_map ∧ buffer.length = mask_map.length

/-- The joint invariant of the edit loop: the cursor is a valid insertion
point and `num_read` tracks the buffer length. -/
def EditInv (s : EditState) : Prop :=
  s.cursor_pos ≤ s.buffer.length ∧ s.num_read = s.buffer.length

/-- The subtrahend of each unsigned subtraction the edit loop performs on
`num_read` (and the corresponding pops from the buffer) stays within
`num_read`, so none of the `usize` subtractions can underflow. -/
def edit_no_underflow (s : EditState) (key : KeyInput) : Prop :=
  match key with
  | .Backspace => s.cursor_pos > 0 → 1 ≤ s.num_read
  | .Delete => s.cursor_pos < s.buffer.length → 1 ≤ s.num_read
  | .KillToEnd => s.buffer.length - s.cursor_pos ≤ s.num_read
  | .KillToStart => s.cursor_pos ≤ s.num_read
  | .KillWordBack =>
    s.cursor_pos -
      skip_word_back s.buffer (skip_spaces_back s.buffer s.cursor_pos) ≤
      s.num_read
  | _ => True

/-! ## Concrete compiled masks used by the scenario claims -/

/-- The compiled mask `"nn?"`: a Digit/Exactly-One element followed by a
Digit/ZeroOrOne element. -/
def mask_nnq : List MaskElement := (parse_mask "nn?".data).getD []

/-- The compiled mask `"nnn-nnnn"`. -/
def mask_phone : List MaskElement := (parse_mask "nnn-nnnn".data).getD []

/-- The compiled mask `"nnn-n"`. -/
def mask_nnn_dash_n : List MaskElement := (parse_mask "nnn-n".data).getD []

/-- The compiled mask `"[0-9]?x"`.  Note that the mask character `x`
denotes the built-in Hex class, not a literal `x`. -/
def mask_optx : List MaskElement := (parse_mask "[0-9]?x".data).getD []

/-- The compiled mask `"U+"`: one-or-more uppercase letters. -/
def mask_uplus : List MaskElement := (parse_mask "U+".data).getD []

/-- A mask-mode context with all flags off (no `-r`, no default, no
filters), as in the scenario claims. -/
def plainCtx (mask : List MaskElement) : MaskCtx := { mask := mask, flags := {} }

/-! ### Edit-loop invariants -/

lemma skip_spaces_back_le (buffer : List Nat) : ∀ n, skip_spaces_back buffer n ≤ n := by
  intro n
  induction n with
  | zero => simp [skip_spaces_back]
  | succ m ih =>
    simp only [skip_spaces_back]
    split
    · exact le_trans ih (Nat.le_succ m)
    · exact le_refl _

lemma skip_word_back_le (buffer : List Nat) : ∀ n, skip_word_back buffer n ≤ n := by
  intro n
  induction n with
  | zero => simp [skip_word_back]
  | succ m ih =>
    simp only [skip_word_back]
    split
    · exact le_trans ih (Nat.le_succ m)
    · exact le_refl _

lemma editInv_init : EditInv edit_init := by
  constructor <;> simp [edit_init]

lemma edit_step_inv (ctx : EditCtx) (s : EditState) (key : KeyInput)
    (h : EditInv s) : EditInv (edit_step ctx s key) := by
  obtain ⟨hc, hn⟩ := h
  cases key with
  | Char b =>
    by_cases hf : filtered_out ctx (Char.ofNat b)
    · simpa [edit_step, hf] using ⟨hc, hn⟩
    · constructor <;>
        simp [edit_step, hf, vec_insert] <;> omega
  | Backspace =>
    by_cases hp : s.cursor_pos > 0
    · constructor <;>
        simp [edit_step, hp, vec_remove] <;> omega
    · simpa [edit_step, hp] using ⟨hc, hn⟩
  | Delete =>
    by_cases hp : s.cursor_pos < s.buffer.length
    · constructor <;>
        simp [edit_step, hp, vec_remove] <;> omega
    · simpa [edit_step, hp] using ⟨hc, hn⟩
  | Left =>
    by_cases hp : s.cursor_pos > 0 <;>
      (refine ⟨?_, ?_⟩ <;> simp [edit_step, hp] <;> omega)
  | Right =>
    by_cases hp : s.cursor_pos < s.buffer.length <;>
      (refine ⟨?_, ?_⟩ <;> simp [edit_step, hp] <;> omega)
  | Home =>
    by_cases hp : s.cursor_pos > 0 <;>
      (refine ⟨?_, ?_⟩ <;> simp [edit_step, hp] <;> omega)
  | End =>
    by_cases hp : s.cursor_pos < s.buffer.length <;>
      (refine ⟨?_, ?_⟩ <;> simp [edit_step, hp] <;> omega)
  | KillToEnd =>
    by_cases hp : s.buffer.length - s.cursor_pos > 0
    · constructor <;>
        simp [edit_step, hp] <;> omega
    · simpa [edit_step, hp] using ⟨hc, hn⟩
  | KillToStart =>
    by_cases hp : s.cursor_pos > 0
    · constructor <;>
        simp [edit_step, hp] <;> omega
    · simpa [edit_step, hp] using ⟨hc, hn⟩
  | KillWordBack =>
    by_cases hp : s.cursor_pos > 0
    · have h1 : skip_spaces_back s.buffer s.cursor_pos ≤ s.cursor_pos :=
        skip_spaces_back_le _ _
      have h2 : skip_word_back s.buffer (skip_spaces_back s.buffer s.cursor_pos) ≤
          skip_spaces_back s.buffer s.cursor_pos := skip_word_back_le _ _
      constructor <;>
        simp [edit_step, hp] <;> omega
    · simpa [edit_step, hp] using ⟨hc, hn⟩
  | Enter =>
    by_cases hd : ctx.flags.dflt && s.num_read = 0 && ctx.has_default
    · simpa [edit_step, hd] using ⟨hc, hn⟩
    · by_cases hr : ctx.flags.ret_key
      · simpa [edit_step, hd, hr] using ⟨hc, hn⟩
      · by_cases hf : filtered_out ctx '\n'
        · simpa [edit_step, hd, hr, hf] using ⟨hc, hn⟩
        · constructor <;>
            simp [edit_step, hd, hr, hf, vec_insert] <;> omega
  | Up => simpa [edit_step] using ⟨hc, hn⟩
  | Down => simpa [edit_step] using ⟨hc, hn⟩
  | Tab => simpa [edit_step] using ⟨hc, hn⟩
  | Escape => simpa [edit_step] using ⟨hc, hn⟩
  | Unknown => simpa [edit_step] using ⟨hc, hn⟩

lemma edit_run_inv (ctx : EditCtx) (keys : List KeyInput) :
    EditInv (edit_run ctx keys) := by
  have main : ∀ (ks : List KeyInput) (s : EditState), EditInv s →
      EditInv (ks.foldl (edit_step ctx) s) := by
    intro ks
    induction ks with
    | nil => intro s h; exact h
    | cons k rest ih =>
      intro s h
      exact ih _ (edit_step_inv ctx s k h)
  exact main keys edit_init editInv_init

lemma auto_insert_from_spec (elems : List MaskElement) :
    ∀ (b m : List Nat) (idx : Nat),
      (auto_insert_from elems b m idx).2 = m ++ lit_run elems idx ∧
      (auto_insert_from elems b m idx).1.length =
        b.length + (lit_run elems idx).length := by
  induction elems with
  | nil => intro b m idx; simp [auto_insert_from, lit_run]
  | cons e rest ih =>
    intro b m idx
    cases hcls : e.cls <;>
      simp only [auto_insert_from, lit_run, hcls] <;>
      try simp
    obtain ⟨h1, h2⟩ := ih (b ++ [_]) (m ++ [idx]) (idx + 1)
    refine ⟨?_, ?_⟩
    · rw [h1]; simp
    · rw [h2]; simp; omega

lemma lit_run_mem (elems : List MaskElement) :
    ∀ (idx j : Nat), j ∈ lit_run elems idx →
      idx ≤ j ∧ j < idx + elems.length := by
  induction elems with
  | nil => intro idx j h; simp [lit_run] at h
  | cons e rest ih =>
    intro idx j h
    cases hcls : e.cls <;> rw [lit_run, hcls] at h <;> try simp at h
    case Literal =>
      rcases h with rfl | hmem
      · simp
      · have := ih (idx + 1) j hmem
        simp only [List.length_cons]
        omega

lemma lit_run_sorted (elems : List MaskElement) :
    ∀ idx : Nat, List.Pairwise (· < ·) (lit_run elems idx) := by
  induction elems with
  | nil => intro idx; simp [lit_run]
  | cons e rest ih =>
    intro idx
    cases hcls : e.cls <;> rw [lit_run, hcls] <;> try simp
    case Literal =>
      refine ⟨fun j hj => ?_, ih (idx + 1)⟩
      have := lit_run_mem rest (idx + 1) j hj
      omega

lemma foldl_ins_lit_spec (mask : List MaskElement) (l : List Nat) :
    ∀ (b m : List Nat),
      (l.foldl (ins_lit_step mask) (b, m)).2 = m ++ lit_filter mask l ∧
      (l.foldl (ins_lit_step mask) (b, m)).1.length =
        b.length + (lit_filter mask l).length := by
  induction l with
  | nil => intro b m; simp [lit_filter]
  | cons li l ih =>
    intro b m
    by_cases hl : isLiteral (maskGet mask li).cls
    · rcases hcls : (maskGet mask li).cls with _ | _ | _ | _ | _ | _ | _ | _ | c | lc <;>
        rw [hcls] at hl <;> simp [isLiteral] at hl
      have hstep : ins_lit_step mask (b, m) li = (b ++ [lc.toNat % 256], m ++ [li]) := by
        simp [ins_lit_step, hcls]
      have hfil : lit_filter mask (li :: l) = li :: lit_filter mask l := by
        simp [lit_filter, List.filter_cons, hcls, isLiteral]
      obtain ⟨h1, h2⟩ := ih (b ++ [lc.toNat % 256]) (m ++ [li])
      rw [List.foldl_cons, hstep, hfil]
      constructor
      · rw [h1]; simp
      · rw [h2]; simp; omega
    · have hstep : ins_lit_step mask (b, m) li = (b, m) := by
        rcases hcls : (maskGet mask li).cls with _ | _ | _ | _ | _ | _ | _ | _ | c | lc <;>
          rw [hcls] at hl <;> simp [isLiteral] at hl <;>
          simp [ins_lit_step, hcls]
      have hfil : lit_filter mask (li :: l) = lit_filter mask l := by
        simp only [lit_filter, List.filter_cons]
        rw [if_neg]
        simpa using hl
      rw [List.foldl_cons, hstep, hfil]
      exact ih b m

lemma lit_filter_mem (mask : List MaskElement) (l : List Nat) (j : Nat)
    (h : j ∈ lit_filter mask l) : j ∈ l :=
  List.mem_of_mem_filter h

lemma lit_filter_sorted (mask : List MaskElement) (l : List Nat)
    (hl : List.Pairwise (· < ·) l) :
    List.Pairwise (· < ·) (lit_filter mask l) :=
  hl.sublist (List.filter_sublist l)

lemma try_advance_from_some_ge (elems : List MaskElement) :
    ∀ (idx n : Nat) (ch : Char), try_advance_from elems idx ch = some n →
      idx ≤ n ∧ n < idx + elems.length := by
  induction elems with
  | nil => intro idx n ch h; simp [try_advance_from] at h
  | cons e rest ih =>
    intro idx n ch h
    rw [try_advance_from] at h
    by_cases h1 : isLiteral e.cls
    · rw [if_pos h1] at h
      have := ih (idx + 1) n ch h
      simp only [List.length_cons]
      omega
    · rw [if_neg h1] at h
      by_cases h2 : mask_char_matches e.cls ch
      · rw [if_pos h2] at h
        injection h with h
        subst h
        simp only [List.length_cons]
        omega
      · rw [if_neg h2] at h
        by_cases h3 : (e.quantifier == Quantifier.Star || e.quantifier == Quantifier.Optional) = true
        · rw [if_pos h3] at h
          have := ih (idx + 1) n ch h
          simp only [List.length_cons]
          omega
        · rw [if_neg h3] at h
          exact absurd h (by simp)

lemma try_advance_bounds (mask : List MaskElement) (af n : Nat) (ch : Char)
    (h : try_advance mask af ch = some n) : af ≤ n ∧ n < mask.length := by
  unfold try_advance at h
  have h2 := try_advance_from_some_ge (mask.drop af) af n ch h
  rw [List.length_drop] at h2
  by_cases hle : af ≤ mask.length
  · omega
  · rw [List.drop_eq_nil_of_le (by omega)] at h
    simp [try_advance_from] at h

lemma lit_run_lt_advance (elems : List MaskElement) :
    ∀ (idx n : Nat) (ch : Char), try_advance_from elems idx ch = some n →
      ∀ j ∈ lit_run elems idx, j < n := by
  induction elems with
  | nil => intro idx n ch h j hj; simp [lit_run] at hj
  | cons e rest ih =>
    intro idx n ch h j hj
    by_cases h1 : isLiteral e.cls
    · rw [try_advance_from, if_pos h1] at h
      rcases hcls : e.cls with _ | _ | _ | _ | _ | _ | _ | _ | c | lc <;>
        rw [hcls] at h1 <;> simp [isLiteral] at h1
      rw [lit_run, hcls] at hj
      rcases List.mem_cons.mp hj with rfl | hmem
      · have := try_advance_from_some_ge rest (j + 1) n ch h
        omega
      · exact ih (idx + 1) n ch h j hmem
    · rcases hcls : e.cls with _ | _ | _ | _ | _ | _ | _ | _ | c | lc <;>
        rw [hcls] at h1 <;> try simp [isLiteral] at h1
      all_goals rw [lit_run, hcls] at hj; simp at hj

lemma sorted_le_getLast (m : List Nat) (hm : List.Pairwise (· ≤ ·) m) :
    ∀ x ∈ m, x ≤ m.getLast?.getD 0 := by
  induction m with
  | nil => simp
  | cons a l ih =>
    intro x hx
    rw [List.pairwise_cons] at hm
    obtain ⟨ha, hl⟩ := hm
    cases l with
    | nil =>
      rw [List.mem_singleton] at hx
      subst hx
      simp
    | cons b l2 =>
      rw [List.getLast?_cons_cons]
      have hmem : (b :: l2).getLast?.getD 0 ∈ b :: l2 := by
        rw [List.getLast?_eq_getLast (b :: l2) (by simp)]
        exact List.getLast_mem _
      rcases List.mem_cons.mp hx with rfl | h
      · exact ha _ hmem
      · exact ih hl x h

lemma fresh_append_sorted (m t : List Nat) (hm : List.Pairwise (· ≤ ·) m)
    (ht : List.Pairwise (· < ·) t) (hcross : ∀ x ∈ m, ∀ y ∈ t, x < y) :
    List.Pairwise (· ≤ ·) (m ++ t) := by
  rw [List.pairwise_append]
  exact ⟨hm, ht.imp le_of_lt, fun x hx y hy => le_of_lt (hcross x hx y hy)⟩

lemma fresh_append_count (m t : List Nat) (ht : List.Pairwise (· < ·) t)
    (hcross : ∀ x ∈ m, ∀ y ∈ t, x < y) (j : Nat) :
    (m ++ t).count j ≤ max (m.count j) 1 := by
  rw [List.count_append]
  have htn : t.Nodup := ht.imp ne_of_lt
  have h1 : t.count j ≤ 1 := List.nodup_iff_count_le_one.mp htn j
  by_cases hj : j ∈ t
  · have hz : m.count j = 0 := by
      rw [List.count_eq_zero]
      intro hjm
      exact absurd (hcross j hjm j hj) (lt_irrefl j)
    omega
  · have hz : t.count j = 0 := List.count_eq_zero.mpr hj
    omega

/-- Appending a strictly increasing block of fresh entries (all larger
than every existing entry) preserves the mask-map invariant, provided the
block indexes real elements. -/
lemma MapInv_append (mask : List MaskElement) (map tm : List Nat)
    (h : MapInv mask map)
    (ht : List.Pairwise (· < ·) tm)
    (hbound : ∀ j ∈ tm, j < mask.length)
    (hcross : ∀ x ∈ map, ∀ y ∈ tm, x < y) :
    MapInv mask (map ++ tm) := by
  obtain ⟨hs, hb, hc⟩ := h
  refine ⟨fresh_append_sorted map tm hs ht hcross, ?_, ?_⟩
  · intro j hj
    rcases List.mem_append.mp hj with hj | hj
    · exact hb j hj
    · exact hbound j hj
  · intro j hq
    have h1 := fresh_append_count map tm ht hcross j
    have h2 := hc j hq
    omega

/-- Re-accepting at the last (unbounded) element preserves the invariant:
the appended entry equals the current last entry, whose quantifier is
Star or Plus. -/
lemma MapInv_append_last (mask : List MaskElement) (map : List Nat)
    (h : MapInv mask map) (idx : Nat)
    (hidx : map.getLast?.getD 0 = idx)
    (hq : (maskGet mask idx).quantifier = .Star ∨
          (maskGet mask idx).quantifier = .Plus)
    (hbound : idx < mask.length) :
    MapInv mask (map ++ [idx]) := by
  obtain ⟨hs, hb, hc⟩ := h
  refine ⟨?_, ?_, ?_⟩
  · rw [List.pairwise_append]
    refine ⟨hs, by simp, fun a ha y hy => ?_⟩
    rw [List.mem_singleton] at hy
    subst hy
    rw [← hidx]
    exact sorted_le_getLast map hs a ha
  · intro j hj
    rcases List.mem_append.mp hj with hj | hj
    · exact hb j hj
    · rw [List.mem_singleton] at hj
      subst hj
      exact hbound
  · intro j hjq
    rw [List.count_append]
    have h2 := hc j hjq
    have hone : [idx].count j = 0 := by
      rw [List.count_eq_zero]
      rw [List.mem_singleton]
      intro hjm
      subst hjm
      rcases hjq with h1 | h1 <;> rcases hq with h3 | h3 <;>
        rw [h1] at h3 <;> exact Quantifier.noConfusion h3
    omega

/-- The element index and count delivered by `current_mask_state` on a
nonempty mask map: the last entry, with a positive trailing count. -/
lemma current_mask_state_nonempty (m : List Nat) (h : m ≠ []) :
    (current_mask_state m).1 = m.getLast?.getD 0 ∧
    1 ≤ (current_mask_state m).2 := by
  obtain ⟨L, hL⟩ : ∃ L, m.getLast? = some L :=
    ⟨m.getLast h, List.getLast?_eq_getLast m h⟩
  cases hr : m.reverse with
  | nil =>
    exact absurd (by simpa using congrArg List.reverse hr) h
  | cons c t =>
    have hc : c = L := by
      have := List.head?_reverse m
      rw [hr] at this
      simp [hL] at this
      exact this
    subst hc
    unfold current_mask_state
    rw [hL, hr]
    constructor
    · simp
    · simp [List.takeWhile_cons]

/-- The advance path preserves the invariant: all spliced literals and
the accepting element land strictly between the old entries and the end
of the mask, in increasing order. -/
lemma advance_accept_inv (mask : List MaskElement) (s : MaskState) (ch : Char)
    (af n : Nat)
    (h : MaskInv mask s.buffer s.mask_map)
    (hn : try_advance mask af ch = some n)
    (hfresh : ∀ y ∈ s.mask_map, y < af) :
    MaskInv mask (mask_advance_accept mask s ch af n).buffer
      (mask_advance_accept mask s ch af n).mask_map := by
  obtain ⟨hmap, hlen⟩ := h
  obtain ⟨haf, hnlt⟩ := try_advance_bounds mask af n ch hn
  have hn' : try_advance_from (mask.drop af) af ch = some n := hn
  -- the leading literal block A
  have hAmem : ∀ j ∈ lit_run (mask.drop af) af, af ≤ j ∧ j < n := fun j hj =>
    ⟨(lit_run_mem (mask.drop af) af j hj).1,
     lit_run_lt_advance (mask.drop af) af n ch hn' j hj⟩
  have hAsorted := lit_run_sorted (mask.drop af) af
  have hspecA := auto_insert_from_spec (mask.drop af) s.buffer s.mask_map af
  have hInv1 : MapInv mask (s.mask_map ++ lit_run (mask.drop af) af) :=
    MapInv_append mask _ _ hmap hAsorted
      (fun j hj => lt_trans (hAmem j hj).2 hnlt)
      (fun x hx y hy => lt_of_lt_of_le (hfresh x hx) (hAmem y hy).1)
  have hlt1 : ∀ x ∈ s.mask_map ++ lit_run (mask.drop af) af, x < n := by
    intro x hx
    rcases List.mem_append.mp hx with hx | hx
    · exact lt_of_lt_of_le (hfresh x hx) haf
    · exact (hAmem x hx).2
  -- a generic continuation: from any (buf1, map1) with the invariant,
  -- all entries < n, accepting at n and trailing literals keep it
  have hfinish : ∀ buf1 map1 : List Nat, MapInv mask map1 →
      (∀ x ∈ map1, x < n) → buf1.length = map1.length →
      MaskInv mask
        (auto_insert_from (mask.drop (n + 1)) (buf1 ++ [ch.toNat % 256])
          (map1 ++ [n]) (n + 1)).1
        (auto_insert_from (mask.drop (n + 1)) (buf1 ++ [ch.toNat % 256])
          (map1 ++ [n]) (n + 1)).2 ∧
      MaskInv mask (buf1 ++ [ch.toNat % 256]) (map1 ++ [n]) := by
    intro buf1 map1 hInv hlt hlone
    have hInvN : MapInv mask (map1 ++ [n]) :=
      MapInv_append mask _ _ hInv (by simp) (by simpa using hnlt)
        (fun x hx y hy => by
          rw [List.mem_singleton] at hy
          subst hy
          exact hlt x hx)
    have hD := auto_insert_from_spec (mask.drop (n + 1))
      (buf1 ++ [ch.toNat % 256]) (map1 ++ [n]) (n + 1)
    have hDmem := lit_run_mem (mask.drop (n + 1)) (n + 1)
    have hInvD : MapInv mask ((map1 ++ [n]) ++ lit_run (mask.drop (n + 1)) (n + 1)) := by
      refine MapInv_append mask _ _ hInvN (lit_run_sorted _ _) ?_ ?_
      · intro j hj
        have h1 := hDmem j hj
        rw [List.length_drop] at h1
        omega
      · intro x hx y hy
        have hyge := (hDmem y hy).1
        rcases List.mem_append.mp hx with hx | hx
        · have := hlt x hx
          omega
        · rw [List.mem_singleton] at hx
          subst hx
          omega
    constructor
    · constructor
      · rw [hD.1]
        exact hInvD
      · rw [hD.1, hD.2]
        simp only [List.length_append, List.length_cons, List.length_nil]
        omega
    · constructor
      · exact hInvN
      · simp only [List.length_append, List.length_cons, List.length_nil]
        omega
  -- package hfinish so that it also absorbs the One/Optional test
  have hfinal : ∀ buf1 map1 : List Nat, MapInv mask map1 →
      (∀ x ∈ map1, x < n) → buf1.length = map1.length →
      MaskInv mask
        ((if ((maskGet mask n).quantifier == Quantifier.One ||
              (maskGet mask n).quantifier == Quantifier.Optional) = true then
            (⟨(auto_insert_from (mask.drop (n + 1)) (buf1 ++ [ch.toNat % 256])
                (map1 ++ [n]) (n + 1)).1,
              (auto_insert_from (mask.drop (n + 1)) (buf1 ++ [ch.toNat % 256])
                (map1 ++ [n]) (n + 1)).2⟩ : MaskState)
          else ⟨buf1 ++ [ch.toNat % 256], map1 ++ [n]⟩) : MaskState).buffer
        ((if ((maskGet mask n).quantifier == Quantifier.One ||
              (maskGet mask n).quantifier == Quantifier.Optional) = true then
            (⟨(auto_insert_from (mask.drop (n + 1)) (buf1 ++ [ch.toNat % 256])
                (map1 ++ [n]) (n + 1)).1,
              (auto_insert_from (mask.drop (n + 1)) (buf1 ++ [ch.toNat % 256])
                (map1 ++ [n]) (n + 1)).2⟩ : MaskState)
          else ⟨buf1 ++ [ch.toNat % 256], map1 ++ [n]⟩) : MaskState).mask_map := by
    intro buf1 map1 h1 h2 h3
    by_cases hq : ((maskGet mask n).quantifier == Quantifier.One ||
        (maskGet mask n).quantifier == Quantifier.Optional) = true
    · rw [if_pos hq]
      exact (hfinish buf1 map1 h1 h2 h3).1
    · rw [if_neg hq]
      exact (hfinish buf1 map1 h1 h2 h3).2
  -- facts about the first auto-insert block as a pair
  have hlenA : (auto_insert_from (mask.drop af) s.buffer s.mask_map af).1.length =
      (auto_insert_from (mask.drop af) s.buffer s.mask_map af).2.length := by
    rw [hspecA.1, hspecA.2]
    simp only [List.length_append]
    omega
  have hInv1' : MapInv mask (auto_insert_from (mask.drop af) s.buffer s.mask_map af).2 := by
    rw [hspecA.1]; exact hInv1
  have hlt1' : ∀ x ∈ (auto_insert_from (mask.drop af) s.buffer s.mask_map af).2, x < n := by
    rw [hspecA.1]; exact hlt1
  -- unfold the definition and dispatch on the li-loop guard
  simp only [mask_advance_accept, mask_auto_insert_literals,
    insert_literals_range]
  by_cases hguard :
      (auto_insert_from (mask.drop af) s.buffer s.mask_map af).2.getLast?.getD 0 < n
  · rw [if_pos hguard]
    -- the li-loop ran: its entries lie in [start, n)
    have hBmem : ∀ st : Nat,
        ∀ b ∈ lit_filter mask (List.range' st (n - st)), st ≤ b ∧ b < n := by
      intro st b hb
      have := lit_filter_mem mask _ b hb
      rw [List.mem_range'] at this
      obtain ⟨i, hi, rfl⟩ := this
      omega
    set st := (if (auto_insert_from (mask.drop af) s.buffer s.mask_map af).2.isEmpty = true
        then 0
        else (auto_insert_from (mask.drop af) s.buffer s.mask_map af).2.getLast?.getD 0 + 1)
      with hst
    have hfold := foldl_ins_lit_spec mask (List.range' st (n - st))
      (auto_insert_from (mask.drop af) s.buffer s.mask_map af).1
      (auto_insert_from (mask.drop af) s.buffer s.mask_map af).2
    have hcross2 : ∀ x ∈ (auto_insert_from (mask.drop af) s.buffer s.mask_map af).2,
        ∀ b ∈ lit_filter mask (List.range' st (n - st)), x < b := by
      intro x hx b hb
      have hb1 := (hBmem st b hb).1
      have hxle := sorted_le_getLast _ hInv1'.1 x hx
      have hne : ¬(auto_insert_from (mask.drop af) s.buffer s.mask_map af).2.isEmpty = true := by
        simp only [List.isEmpty_iff]
        intro habs
        rw [habs] at hx
        simp at hx
      rw [hst, if_neg hne] at hb1
      omega
    have hInv2 : MapInv mask
        ((auto_insert_from (mask.drop af) s.buffer s.mask_map af).2 ++
          lit_filter mask (List.range' st (n - st))) :=
      MapInv_append mask _ _ hInv1'
        (lit_filter_sorted mask _ (List.pairwise_lt_range' st (n - st)))
        (fun j hj => lt_trans (hBmem st j hj).2 hnlt) hcross2
    have hlt2 : ∀ x ∈ (auto_insert_from (mask.drop af) s.buffer s.mask_map af).2 ++
        lit_filter mask (List.range' st (n - st)), x < n := by
      intro x hx
      rcases List.mem_append.mp hx with hx | hx
      · exact hlt1' x hx
      · exact (hBmem st x hx).2
    refine hfinal _ _ ?_ ?_ ?_
    · rw [hfold.1]; exact hInv2
    · rw [hfold.1]; exact hlt2
    · rw [hfold.1, hfold.2]
      simp only [List.length_append]
      omega
  · rw [if_neg hguard]
    exact hfinal _ _ hInv1' hlt1' hlenA


/-- The greedy-accept path preserves the invariant.  It is entered either
on an empty mask map (accepting at element 0) or at the current last
element when that element is unbounded. -/
lemma greedy_accept_inv (mask : List MaskElement) (s : MaskState) (ch : Char)
    (idx count : Nat)
    (h : MaskInv mask s.buffer s.mask_map)
    (hbound : idx < mask.length)
    (hcase : (s.mask_map = [] ∧ idx = 0) ∨
             (s.mask_map.getLast?.getD 0 = idx ∧
               ((maskGet mask idx).quantifier = .Star ∨
                (maskGet mask idx).quantifier = .Plus))) :
    MaskInv mask (mask_greedy_accept mask s ch idx count).buffer
      (mask_greedy_accept mask s ch idx count).mask_map := by
  obtain ⟨hmap, hlen⟩ := h
  simp only [mask_greedy_accept, mask_auto_insert_literals]
  rcases hq : (maskGet mask idx).quantifier with _ | _ | _ | _
  case One | Optional =>
    -- the element is now full: trailing literals are spliced in
    have hA : s.mask_map = [] ∧ idx = 0 := by
      rcases hcase with hc | hc
      · exact hc
      · rcases hc.2 with h2 | h2 <;> rw [hq] at h2 <;>
          exact Quantifier.noConfusion h2
    obtain ⟨hm0, hidx0⟩ := hA
    simp only [ge_iff_le, Nat.le_add_left, decide_True]
    rw [if_pos trivial]
    have hspec := auto_insert_from_spec (mask.drop (idx + 1))
      (s.buffer ++ [ch.toNat % 256]) (s.mask_map ++ [idx]) (idx + 1)
    have hDmem := lit_run_mem (mask.drop (idx + 1)) (idx + 1)
    have hInvN : MapInv mask (s.mask_map ++ [idx]) := by
      refine MapInv_append mask _ _ hmap (by simp) (by simpa using hbound) ?_
      intro x hx
      rw [hm0] at hx
      simp at hx
    have hInvD : MapInv mask
        ((s.mask_map ++ [idx]) ++ lit_run (mask.drop (idx + 1)) (idx + 1)) := by
      refine MapInv_append mask _ _ hInvN (lit_run_sorted _ _) ?_ ?_
      · intro j hj
        have h1 := hDmem j hj
        rw [List.length_drop] at h1
        omega
      · intro x hx y hy
        have hyge := (hDmem y hy).1
        rcases List.mem_append.mp hx with hx | hx
        · rw [hm0] at hx
          simp at hx
        · rw [List.mem_singleton] at hx
          subst hx
          omega
    constructor
    · rw [hspec.1]
      exact hInvD
    · rw [hspec.1, hspec.2]
      simp only [List.length_append, List.length_cons, List.length_nil]
      omega
  case Star | Plus =>
    -- unbounded elements do not auto-advance: no literal splice
    simp only [Bool.false_eq_true, if_false]
    rcases hcase with hc | hc
    · obtain ⟨hm0, hidx0⟩ := hc
      constructor
      · refine MapInv_append mask _ _ hmap (by simp) (by simpa using hbound) ?_
        intro x hx
        rw [hm0] at hx
        simp at hx
      · simp only [List.length_append, List.length_cons, List.length_nil]
        omega
    · constructor
      · exact MapInv_append_last mask _ hmap idx hc.1 (by rw [hq]; simp) hbound
      · simp only [List.length_append, List.length_cons, List.length_nil]
        omega

/-- The whole quantifier-aware acceptance decision preserves the
invariant. -/
lemma accept_char_inv (mask : List MaskElement) (s : MaskState) (ch : Char)
    (h : MaskInv mask s.buffer s.mask_map) :
    MaskInv mask (mask_accept_char mask s ch).buffer
      (mask_accept_char mask s ch).mask_map := by
  simp only [mask_accept_char]
  by_cases hmc : ((if (current_mask_state s.mask_map).1 < mask.length then
        match (maskGet mask (current_mask_state s.mask_map).1).quantifier with
        | .One => decide ((current_mask_state s.mask_map).2 < 1)
        | .Star => true
        | .Plus => true
        | .Optional => decide ((current_mask_state s.mask_map).2 < 1)
      else false) &&
      decide ((current_mask_state s.mask_map).1 < mask.length) &&
      mask_char_matches (maskGet mask (current_mask_state s.mask_map).1).cls ch) = true
  · rw [if_pos hmc]
    obtain ⟨⟨hacc, hlt⟩, hmatch⟩ :
        (_ = true ∧ _ = true) ∧ _ = true := by
      rw [Bool.and_eq_true, Bool.and_eq_true] at hmc
      exact hmc
    rw [decide_eq_true_eq] at hlt
    rw [if_pos hlt] at hacc
    refine greedy_accept_inv mask s ch _ _ h hlt ?_
    by_cases hm : s.mask_map = []
    · left
      refine ⟨hm, ?_⟩
      rw [hm]
      rfl
    · right
      obtain ⟨hcur1, hcur2⟩ := current_mask_state_nonempty s.mask_map hm
      refine ⟨hcur1.symm, ?_⟩
      cases hq : (maskGet mask (current_mask_state s.mask_map).1).quantifier with
      | One =>
        rw [hq] at hacc
        simp at hacc
        omega
      | Star => exact Or.inl rfl
      | Plus => exact Or.inr rfl
      | Optional =>
        rw [hq] at hacc
        simp at hacc
        omega
  · rw [if_neg hmc]
    by_cases hms : ((if (current_mask_state s.mask_map).1 < mask.length then
        match (maskGet mask (current_mask_state s.mask_map).1).quantifier with
        | .One => decide ((current_mask_state s.mask_map).2 ≥ 1)
        | .Star => true
        | .Plus => decide ((current_mask_state s.mask_map).2 ≥ 1)
        | .Optional => true
      else true)) = true
    · rw [if_pos hms]
      cases hta : try_advance mask
          (if (current_mask_state s.mask_map).1 < mask.length then
            (current_mask_state s.mask_map).1 + 1
          else mask.length) ch with
      | none => exact h
      | some n =>
        refine advance_accept_inv mask s ch _ n h hta ?_
        intro y hy
        have hne : s.mask_map ≠ [] := by
          intro habs
          rw [habs] at hy
          simp at hy
        obtain ⟨hcur1, _⟩ := current_mask_state_nonempty s.mask_map hne
        have hyle : y ≤ (current_mask_state s.mask_map).1 := by
          rw [hcur1]
          exact sorted_le_getLast s.mask_map h.1.1 y hy
        by_cases hidx : (current_mask_state s.mask_map).1 < mask.length
        · rw [if_pos hidx]
          omega
        · rw [if_neg hidx]
          exact h.1.2.1 y hy
    · rw [if_neg hms]
      exact h

/-- Popping the last buffer byte and mask-map entry together preserves
the invariant. -/
lemma inv_dropLast (mask : List MaskElement) (b m : List Nat)
    (h : MaskInv mask b m) : MaskInv mask b.dropLast m.dropLast := by
  obtain ⟨⟨hs, hb, hc⟩, hl⟩ := h
  refine ⟨⟨hs.sublist (List.dropLast_sublist m), ?_, ?_⟩, ?_⟩
  · intro j hj
    exact hb j ((List.dropLast_sublist m).subset hj)
  · intro j hq
    exact le_trans ((List.dropLast_sublist m).count_le j) (hc j hq)
  · simp only [List.length_dropLast]
    omega

lemma backspace_chain_go_inv (mask : List MaskElement) :
    ∀ (fuel : Nat) (b m : List Nat), MaskInv mask b m →
      MaskInv mask (backspace_chain_go mask fuel b m).1
        (backspace_chain_go mask fuel b m).2 := by
  intro fuel
  induction fuel with
  | zero => intro b m h; exact h
  | succ f ih =>
    intro b m h
    by_cases hb : b = []
    · simp only [backspace_chain_go, if_pos hb]
      exact h
    · simp only [backspace_chain_go, if_neg hb]
      by_cases hlit : isLiteral (maskGet mask (m.getLast?.getD 0)).cls = true
      · rw [if_pos hlit]
        by_cases hall : (m.all fun mi => isLiteral (maskGet mask mi).cls) = true
        · rw [if_pos hall]
          exact ih _ _ (inv_dropLast mask b m h)
        · rw [if_neg hall]
          by_cases hnext : (!b.dropLast.isEmpty &&
              isLiteral (maskGet mask (m.dropLast.getLast?.getD 0)).cls) = true
          · rw [if_pos hnext]
            exact ih _ _ (inv_dropLast mask b m h)
          · rw [if_neg hnext]
            exact inv_dropLast mask b m h
      · rw [if_neg hlit]
        exact h

/-- The Backspace arm preserves the invariant. -/
lemma step_backspace_inv (mask : List MaskElement) (s : MaskState)
    (h : MaskInv mask s.buffer s.mask_map) :
    MaskInv mask (mask_step_backspace mask s).buffer
      (mask_step_backspace mask s).mask_map := by
  unfold mask_step_backspace
  by_cases hb : s.buffer = []
  · rw [if_pos hb]
    exact h
  · rw [if_neg hb]
    exact backspace_chain_go_inv mask _ _ _
      (inv_dropLast mask s.buffer s.mask_map h)

/-- The state built before the loop (leading literals auto-inserted into
the empty buffer) satisfies the invariant. -/
lemma mask_init_inv (ctx : MaskCtx) :
    MaskInv ctx.mask (mask_init ctx).buffer (mask_init ctx).mask_map := by
  simp only [mask_init, mask_auto_insert_literals]
  have hspec := auto_insert_from_spec (ctx.mask.drop 0) [] [] 0
  have hmem := lit_run_mem (ctx.mask.drop 0) 0
  constructor
  · rw [hspec.1]
    refine MapInv_append ctx.mask [] _ ⟨by simp, by simp, by simp⟩
      (lit_run_sorted _ _) ?_ (by simp)
    intro j hj
    have := hmem j hj
    rw [List.length_drop] at this
    omega
  · rw [hspec.1, hspec.2]
    simp

/-- Every key dispatched by the loop preserves the invariant. -/
lemma mask_loop_state_inv (ctx : MaskCtx) (s : MaskState) (key : KeyInput)
    (h : MaskInv ctx.mask s.buffer s.mask_map) :
    MaskInv ctx.mask (mask_loop_state ctx s key).buffer
      (mask_loop_state ctx s key).mask_map := by
  cases key with
  | Char b =>
    simp only [mask_loop_state, mask_step, mask_step_char]
    by_cases h1 : (ctx.flags.check &&
        (match ctx.valid_pattern with
         | some re => !re (case_map ctx.flags (Char.ofNat b))
         | none => false)) = true
    · rw [if_pos h1]; exact h
    · rw [if_neg h1]
      by_cases h2 : (ctx.flags.exclude &&
          (match ctx.exclude_pattern with
           | some re => re (case_map ctx.flags (Char.ofNat b))
           | none => false)) = true
      · rw [if_pos h2]; exact h
      · rw [if_neg h2]
        exact accept_char_inv ctx.mask s _ h
  | Backspace =>
    simp only [mask_loop_state, mask_step]
    exact step_backspace_inv ctx.mask s h
  | Enter =>
    have : mask_loop_state ctx s .Enter = s := by
      simp only [mask_loop_state, mask_step]
      by_cases h1 : (ctx.flags.dflt && s.buffer.isEmpty && ctx.default_string.isSome) = true
      · rw [if_pos h1]
      · rw [if_neg h1]
        by_cases h2 : ctx.flags.ret_key = true
        · rw [if_pos h2]
          by_cases h3 : (mask_satisfied ctx.mask s.mask_map || s.buffer.isEmpty) = true
          · rw [if_pos h3]
          · rw [if_neg h3]
        · rw [if_neg h2]
          by_cases h4 : (!mask_has_unbounded ctx.mask) = true
          · rw [if_pos h4]
          · rw [if_neg h4]
            by_cases h5 : (mask_satisfied ctx.mask s.mask_map && !s.buffer.isEmpty) = true
            · rw [if_pos h5]
            · rw [if_neg h5]
    rw [this]
    exact h
  | Escape => exact h
  | _ => exact h

/-- **C5 main theorem** (see `mask_map_buffer_invariant`): the invariant
holds in every state reachable by the mask-mode loop. -/
lemma mask_reach_inv (ctx : MaskCtx) (keys : List KeyInput) :
    MaskInv ctx.mask (mask_reach ctx keys).buffer
      (mask_reach ctx keys).mask_map := by
  unfold mask_reach
  have main : ∀ (ks : List KeyInput) (s : MaskState),
      MaskInv ctx.mask s.buffer s.mask_map →
      MaskInv ctx.mask (ks.foldl (mask_loop_state ctx) s).buffer
        (ks.foldl (mask_loop_state ctx) s).mask_map := by
    intro ks
    induction ks with
    | nil => intro s h; exact h
    | cons k rest ih =>
      intro s h
      exact ih _ (mask_loop_state_inv ctx s k h)
  exact main keys (mask_init ctx) (mask_init_inv ctx)

/-! ## Claim theorems: key decoder -/

/-- **C8.** `read_key` maps each control byte to its stated logical key
(Ctrl-A→Home, Ctrl-B→Left, Ctrl-D→Delete, Ctrl-E→End, Ctrl-F→Right,
Ctrl-K→KillToEnd, Ctrl-U→KillToStart, Ctrl-W→KillWordBack, Tab→Tab,
DEL or BS→Backspace, LF or CR→Enter); a `0x1B` with no follow-up byte
available within the wait yields bare Escape, `0x1B,'[','A'` yields Up,
and `0x1B,'[','3','~'` yields Delete. -/
theorem read_key_control_and_escape_map :
    read_key false [.byte 0x01] = .ok .Home ∧
    read_key false [.byte 0x02] = .ok .Left ∧
    read_key false [.byte 0x04] = .ok .Delete ∧
    read_key false [.byte 0x05] = .ok .End ∧
    read_key false [.byte 0x06] = .ok .Right ∧
    read_key false [.byte 0x0B] = .ok .KillToEnd ∧
    read_key false [.byte 0x15] = .ok .KillToStart ∧
    read_key false [.byte 0x17] = .ok .KillWordBack ∧
    read_key false [.byte 0x09] = .ok .Tab ∧
    read_key false [.byte 0x7F] = .ok .Backspace ∧
    read_key false [.byte 0x08] = .ok .Backspace ∧
    read_key false [.byte 0x0A] = .ok .Enter ∧
    read_key false [.byte 0x0D] = .ok .Enter ∧
    read_key false [.byte 0x1B] = .ok .Escape ∧
    read_key true [.byte 0x1B, .byte 91, .byte 65] = .ok .Up ∧
    read_key true [.byte 0x1B, .byte 91, .byte 51, .byte 126] = .ok .Delete :=
  ⟨rfl, rfl, rfl, rfl, rfl, rfl, rfl, rfl, rfl, rfl, rfl, rfl, rfl, rfl,
   rfl, rfl⟩

/-- **C4 counterexample.** A read failure in the middle of an escape
sequence does *not* propagate: after the initial `0x1B` a failing read
yields `Ok(Escape)`, and after `0x1B,'['` it yields `Ok(Unknown)` —
`parse_escape_seq` swallows both errors, contradicting the claim that
every non-interrupted read failure propagates to the caller. -/
theorem read_key_swallows_mid_escape_failure :
    read_key true [.byte 0x1B, .fail (.other 5)] = .ok .Escape ∧
    read_key true [.byte 0x1B, .byte 91, .fail (.other 5)] = .ok .Unknown ∧
    (.ok .Escape : Except ErrKind KeyInput) ≠ .error (.other 5) := by
  refine ⟨rfl, rfl, ?_⟩
  intro h
  exact Except.noConfusion h

/-- **C4 (amended).** A read failure of any kind at the *initial* read of
`read_key` propagates to the caller, and end-of-stream is reported as the
distinct `UnexpectedEof` kind; but a read failure in the middle of an
escape sequence is swallowed: after the initial `0x1B` it yields bare
Escape, and after `0x1B,'['` it yields Unknown. -/
theorem read_key_error_propagation :
    (∀ (k : ErrKind) (rest : List ReadEvent),
      read_key false (.fail k :: rest) = .error k) ∧
    (∀ rest : List ReadEvent,
      read_key false (.eof :: rest) = .error .unexpectedEof) ∧
    (∀ k : ErrKind, read_key true [.byte 0x1B, .fail k] = .ok .Escape) ∧
    (∀ k : ErrKind,
      read_key true [.byte 0x1B, .byte 91, .fail k] = .ok .Unknown) := by
  refine ⟨fun k rest => rfl, fun rest => rfl, fun k => rfl, fun k => rfl⟩

/-- Witness for the amended C4 statement at concrete inputs. -/
theorem read_key_error_propagation_witness :
    read_key false [.fail .interrupted] = .error .interrupted ∧
    read_key false [.eof] = .error .unexpectedEof ∧
    read_key true [.byte 0x1B, .fail (.other 11)] = .ok .Escape ∧
    read_key true [.byte 0x1B, .byte 91, .fail (.other 11)] = .ok .Unknown :=
  ⟨read_key_error_propagation.1 .interrupted [],
   read_key_error_propagation.2.1 [],
   read_key_error_propagation.2.2.1 (.other 11),
   read_key_error_propagation.2.2.2 (.other 11)⟩

/-! ## Claim theorems: line-editing loop -/

/-- **C7.** After any sequence of edit-buffer operations (insert,
Backspace, Delete, Left/Right/Home/End, KillToEnd, KillToStart,
KillWordBack, Enter-insert) in the line-editing loop,
`0 ≤ cursor ≤ len(buffer)` holds. -/
theorem edit_cursor_in_bounds (ctx : EditCtx) (keys : List KeyInput) :
    (edit_run ctx keys).cursor_pos ≤ (edit_run ctx keys).buffer.length :=
  (edit_run_inv ctx keys).1

/-- Witness for C7 on a concrete key sequence. -/
theorem edit_cursor_in_bounds_witness :
    (edit_run ⟨{}, none, none, false⟩
      [.Char 97, .Char 98, .Home, .Delete, .Enter, .Backspace]).cursor_pos ≤
    (edit_run ⟨{}, none, none, false⟩
      [.Char 97, .Char 98, .Home, .Delete, .Enter, .Backspace]).buffer.length :=
  edit_cursor_in_bounds ⟨{}, none, none, false⟩
    [.Char 97, .Char 98, .Home, .Delete, .Enter, .Backspace]

/-- **C10.** In the line-editing loop, `num_read` equals `len(buffer)`
after every operation, and consequently the unsigned subtractions in
Backspace, Delete, KillToEnd, KillToStart and KillWordBack never take
more from `num_read` than it holds. -/
theorem edit_num_read_tracks_buffer (ctx : EditCtx) (keys : List KeyInput) :
    (edit_run ctx keys).num_read = (edit_run ctx keys).buffer.length ∧
    ∀ key : KeyInput, edit_no_underflow (edit_run ctx keys) key := by
  obtain ⟨hc, hn⟩ := edit_run_inv ctx keys
  refine ⟨hn, fun key => ?_⟩
  have hs := skip_word_back_le (edit_run ctx keys).buffer
    (skip_spaces_back (edit_run ctx keys).buffer (edit_run ctx keys).cursor_pos)
  have hs2 := skip_spaces_back_le (edit_run ctx keys).buffer
    (edit_run ctx keys).cursor_pos
  cases key <;> simp [edit_no_underflow] <;> omega

/-- Witness for C10 on a concrete key sequence. -/
theorem edit_num_read_tracks_buffer_witness :
    (edit_run ⟨{}, none, none, false⟩
      [.Char 97, .Char 32, .Char 98, .KillWordBack]).num_read =
    (edit_run ⟨{}, none, none, false⟩
      [.Char 97, .Char 32, .Char 98, .KillWordBack]).buffer.length ∧
    ∀ key : KeyInput,
      edit_no_underflow
        (edit_run ⟨{}, none, none, false⟩
          [.Char 97, .Char 32, .Char 98, .KillWordBack]) key :=
  edit_num_read_tracks_buffer ⟨{}, none, none, false⟩
    [.Char 97, .Char 32, .Char 98, .KillWordBack]

/-! ## Claim theorems: mask automaton scenarios -/

/-- **C6.** Compiling `"nnn-nnnn"` and feeding the seven keystrokes
`5,5,5,1,2,3,4` terminates with buffer exactly `"555-1234"`: after the
third digit the literal `-` has been spliced in without consuming a
keystroke (buffer `"555-"`, map `[0,1,2,3]`), and the loop exits by the
completion check after the seventh digit. -/
theorem mask_phone_roundtrip :
    parse_mask "nnn-nnnn".data = some mask_phone ∧
    mask_reach (plainCtx mask_phone) [.Char 53, .Char 53, .Char 53] =
      ⟨[53, 53, 53, 45], [0, 1, 2, 3]⟩ ∧
    mask_run (plainCtx mask_phone) (mask_init (plainCtx mask_phone))
      [.Char 53, .Char 53, .Char 53, .Char 49, .Char 50, .Char 51, .Char 52] =
      .accepted ("555-1234".data.map Char.toNat) := by
  refine ⟨rfl, by decide, by decide⟩

/-- **C1 counterexample.** For mask `"nn?"` after one accepted digit every
element's minimum is met (`mask_satisfied` holds), yet the completion
check is false and the loop keeps waiting for input instead of exiting. -/
theorem mask_nnq_min_met_no_exit :
    parse_mask "nn?".data = some mask_nnq ∧
    mask_run (plainCtx mask_nnq) (mask_init (plainCtx mask_nnq)) [.Char 53] =
      .pending ⟨[53], [0]⟩ ∧
    mask_satisfied mask_nnq [0] = true ∧
    auto_complete mask_nnq ⟨[53], [0]⟩ = false := by
  refine ⟨rfl, by decide, by decide, by decide⟩

/-- **C1 (amended).** For a mask with no unbounded element, meeting every
minimum does not suffice to end the entry loop.  The loop exits
automatically whenever all elements are Exactly-One and the buffer length
has reached the element count; but a mask with a ZeroOrOne element such
as `"nn?"` never auto-completes in any state — after one accepted digit
the minimums are met and the loop still does not exit. -/
theorem auto_complete_characterization :
    (∀ (mask : List MaskElement) (s : MaskState),
      (mask.all fun e => e.quantifier == .One) = true →
      mask.length ≤ s.buffer.length →
      auto_complete mask s = true) ∧
    (∀ s : MaskState, auto_complete mask_nnq s = false) := by
  constructor
  · intro mask s hall hlen
    have hnu : mask_has_unbounded mask = false := by
      rw [List.all_eq_true] at hall
      simp only [mask_has_unbounded]
      rw [List.any_eq_false]
      intro e he
      have h1 := hall e he
      rw [beq_iff_eq] at h1
      simp [h1]
    simp only [List.all_eq_true, beq_iff_eq] at hall
    simp [auto_complete, hnu, List.all_eq_true]
    exact Or.inl ⟨hlen, hall⟩
  · intro s
    have hdef : mask_nnq = [⟨.Digit, .One⟩, ⟨.Digit, .Optional⟩] := by decide
    rw [hdef]
    rcases s with ⟨buf, m⟩
    rcases m with _ | ⟨a, l⟩
    · simp [auto_complete, mask_has_unbounded, maskGet, mask_satisfied,
        current_mask_state, isLiteral]
    · cases hL : (a :: l).getLast? with
      | none => simp at hL
      | some idx =>
        simp [auto_complete, mask_has_unbounded, maskGet, mask_satisfied,
          current_mask_state, hL]
        intro h1 h2 hq hidx
        subst hidx
        simp at hq

/-- Witness for the amended C1 statement: the all-Exactly-One mask
`"nnn-nnnn"` completes once the buffer is full, while `"nn?"` does not
complete even with both digits typed. -/
theorem auto_complete_characterization_witness :
    auto_complete mask_phone
      ⟨"555-1234".data.map Char.toNat, [0, 1, 2, 3, 4, 5, 6, 7]⟩ = true ∧
    auto_complete mask_nnq ⟨[53, 53], [0, 1]⟩ = false :=
  ⟨auto_complete_characterization.1 mask_phone
      ⟨"555-1234".data.map Char.toNat, [0, 1, 2, 3, 4, 5, 6, 7]⟩
      (by decide) (by decide),
   auto_complete_characterization.2 ⟨[53, 53], [0, 1]⟩⟩

/-- **C2 counterexample.** With mask `"nnn-n"` and buffer `"555-"` (map
`[0,1,2,3]`), a single Backspace leaves `"555"` with map `[0,1,2]` — not
the claimed `"55"`: only the auto-inserted `-` is removed, because the
chain-delete triggers on the entries *exposed* after the pop, and the
exposed entry is a digit. -/
theorem mask_nnn_dash_n_backspace_counterexample :
    parse_mask "nnn-n".data = some mask_nnn_dash_n ∧
    mask_reach (plainCtx mask_nnn_dash_n) [.Char 53, .Char 53, .Char 53] =
      ⟨[53, 53, 53, 45], [0, 1, 2, 3]⟩ ∧
    mask_reach (plainCtx mask_nnn_dash_n)
      [.Char 53, .Char 53, .Char 53, .Backspace] = ⟨[53, 53, 53], [0, 1, 2]⟩ ∧
    ([53, 53, 53] : List Nat) ≠ [53, 53] := by
  refine ⟨rfl, by decide, by decide, by decide⟩

/-- **C2 (amended).** A single Backspace over `"555-"` (mask `"nnn-n"`)
removes only the auto-inserted `-`, landing at the digit element with
count 3 (buffer `"555"`, map `[0,1,2]`).  The one-step chain-delete over
the literal occurs when the popped character exposes it: from `"555-1"` a
single Backspace removes both the `1` and the auto-inserted `-`. -/
theorem mask_nnn_dash_n_backspace :
    mask_reach (plainCtx mask_nnn_dash_n)
      [.Char 53, .Char 53, .Char 53, .Backspace] = ⟨[53, 53, 53], [0, 1, 2]⟩ ∧
    mask_reach (plainCtx mask_nnn_dash_n) [.Char 53, .Char 53, .Char 53, .Char 49] =
      ⟨[53, 53, 53, 45, 49], [0, 1, 2, 3, 4]⟩ ∧
    mask_reach (plainCtx mask_nnn_dash_n)
      [.Char 53, .Char 53, .Char 53, .Char 49, .Backspace] =
      ⟨[53, 53, 53], [0, 1, 2]⟩ := by
  refine ⟨by decide, by decide, by decide⟩

/-- **C3 counterexample.** In the compiled mask `"[0-9]?x"` the mask
character `x` is the built-in Hex class, and the character `x` is not a
hex digit, so feeding `x` on an empty buffer is rejected: the state is
unchanged, no character is appended. -/
theorem mask_optx_rejects_x :
    parse_mask "[0-9]?x".data = some mask_optx ∧
    mask_optx = [⟨.Custom ['0', '-', '9'], .Optional⟩, ⟨.Hex, .One⟩] ∧
    mask_char_matches .Hex 'x' = false ∧
    mask_reach (plainCtx mask_optx) [.Char 120] = ⟨[], []⟩ := by
  refine ⟨rfl, by decide, by decide, by decide⟩

/-- **C3 (amended).** For mask `"[0-9]?x"`, feeding a character that the
*following* element accepts — e.g. `a`, a hex digit that does not match
`[0-9]` — does advance past the ZeroOrOne element and is accepted at
element index 1, appending it to the buffer. -/
theorem mask_optx_advances_past_optional :
    bracket_matches ['0', '-', '9'] 'a' = false ∧
    try_advance mask_optx 1 'a' = some 1 ∧
    mask_reach (plainCtx mask_optx) [.Char 97] = ⟨[97], [1]⟩ := by
  refine ⟨by decide, by decide, by decide⟩

/-- **C5.** In every state reachable by the mask-mode loop — any sequence
of accepted characters, auto-inserted literals and backspaces, from any
compiled mask (the statement covers every element list, hence in
particular every `parse_mask` result) — `len(mask_map) = len(buffer)`,
and for every Exactly-One or ZeroOrOne mask element the number of its
occurrences in the mask map never exceeds one (its maximum; ZeroOrMore
and OneOrMore elements are unbounded). -/
theorem mask_map_buffer_invariant (ctx : MaskCtx) (keys : List KeyInput) :
    (mask_reach ctx keys).buffer.length =
      (mask_reach ctx keys).mask_map.length ∧
    ∀ j : Nat,
      (maskGet ctx.mask j).quantifier = .One ∨
      (maskGet ctx.mask j).quantifier = .Optional →
      (mask_reach ctx keys).mask_map.count j ≤ 1 := by
  obtain ⟨⟨hs, hb, hc⟩, hl⟩ := mask_reach_inv ctx keys
  exact ⟨hl, hc⟩

/-- Witness for C5 on the `"nnn-nnnn"` mask with a concrete key list
containing accepted digits, a rejected letter and a backspace. -/
theorem mask_map_buffer_invariant_witness :
    (mask_reach (plainCtx mask_phone)
      [.Char 53, .Char 53, .Backspace, .Char 97, .Char 53]).buffer.length =
      (mask_reach (plainCtx mask_phone)
        [.Char 53, .Char 53, .Backspace, .Char 97, .Char 53]).mask_map.length ∧
    ∀ j : Nat,
      (maskGet mask_phone j).quantifier = .One ∨
      (maskGet mask_phone j).quantifier = .Optional →
      (mask_reach (plainCtx mask_phone)
        [.Char 53, .Char 53, .Backspace, .Char 97, .Char 53]).mask_map.count j ≤ 1 :=
  mask_map_buffer_invariant (plainCtx mask_phone)
    [.Char 53, .Char 53, .Backspace, .Char 97, .Char 53]

/-- **C9.** Mask `"U+"` (one-or-more uppercase) in mask mode without `-r`:
the completion check never fires in any state; feeding `"ABC"` then Enter
accepts the buffer; and Enter with zero characters typed and no default
is a no-op, leaving the loop state unchanged. -/
theorem mask_uplus_enter_behaviour :
    (∀ s : MaskState, auto_complete mask_uplus s = false) ∧
    mask_run (plainCtx mask_uplus) (mask_init (plainCtx mask_uplus))
      [.Char 65, .Char 66, .Char 67, .Enter] = .accepted [65, 66, 67] ∧
    mask_step (plainCtx mask_uplus) (mask_init (plainCtx mask_uplus)) .Enter =
      .cont (mask_init (plainCtx mask_uplus)) := by
  refine ⟨fun s => ?_, by decide, by decide⟩
  have h : mask_has_unbounded mask_uplus = true := by decide
  simp [auto_complete, h]

/-- Witness for C9 at a concrete state: even with three accepted
uppercase characters the completion check is false. -/
theorem mask_uplus_enter_behaviour_witness :
    auto_complete mask_uplus ⟨[65, 66, 67], [0, 0, 0]⟩ = false :=
  mask_uplus_enter_behaviour.1 ⟨[65, 66, 67], [0, 0, 0]⟩

end Grabchars
